import Mathlib

/-!
Shallow embedding of the tuggerah binary storage engines
(`src/data/` of the repository): the `Entry` data model, the bincode-style
binary record format, the two record iterators, the full-rewrite store
(`binary_file_entry_store.rs`) and the indexed store
(`indexed_binary_file_entry_store.rs`).

Modelling conventions:
* Files and buffers are `List Nat` of byte values; Rust `String`s are
  modelled by their UTF-8 byte content (`Str := List Nat`), since the store
  only ever compares ids for equality and UTF-8 encoding is injective.
* `u64`/`usize` values are `Nat`; the on-disk 8-byte little-endian encoding
  reduces modulo `2 ^ 64` exactly where the machine width matters.
* `std::io::Read::read_exact` on a file returns the requested bytes when
  enough remain and fails with `UnexpectedEof` otherwise; that is the only
  I/O failure mode representable for in-memory file contents, so
  environmental failures (open/remove/rename) are modelled by explicit
  failure-injection parameters where a claim is about them.
* `HashMap<String, Position>` is modelled as an association list with
  unique keys; its unspecified iteration order becomes the list order.
-/

namespace Tuggerah

/-- Strings are modelled by their UTF-8 byte content. -/
abbrev Str := List Nat

/-- The stored record (`model.rs`, struct `Entry`). -/
structure Entry where
  id : Str
  title : Str
  username : Option Str
  password : Option Str
  url : Option Str
  note : Option Str
deriving DecidableEq, Repr

/-- Byte range of one serialized entry in the data file
(`indexed_binary_file_entry_store.rs`, struct `Position`). -/
structure Position where
  offset : Nat
  length : Nat
deriving DecidableEq, Repr

/-- One fixed-width index record (`indexed_binary_file_entry_store.rs`,
struct `IndexEntry`). -/
structure IndexEntry where
  id : Str
  position : Position
deriving DecidableEq, Repr

/-- The u64 modulus. -/
def U64 : Nat := 2 ^ 64

/-- Little-endian 8-byte encoding of a `u64` value
(byteorder `write_u64::<LittleEndian>` / bincode fixint). -/
def u64le (n : Nat) : List Nat :=
  [n % 256, n / 256 % 256, n / 256 ^ 2 % 256, n / 256 ^ 3 % 256,
   n / 256 ^ 4 % 256, n / 256 ^ 5 % 256, n / 256 ^ 6 % 256, n / 256 ^ 7 % 256]

/-- Little-endian decoding of 8 bytes into a `u64` value; the result is
reduced modulo `2 ^ 64` because the machine value is a `u64`. -/
def u64dec (bs : List Nat) : Nat :=
  match bs with
  | [b0, b1, b2, b3, b4, b5, b6, b7] =>
      (b0 + b1 * 256 + b2 * 256 ^ 2 + b3 * 256 ^ 3 + b4 * 256 ^ 4 +
        b5 * 256 ^ 5 + b6 * 256 ^ 6 + b7 * 256 ^ 7) % U64
  | _ => 0

/-- bincode serialization of a string: u64 length followed by the bytes. -/
def serStr (s : Str) : List Nat := u64le s.length ++ s

/-- bincode serialization of `Option<String>`: one tag byte, then the
string when present. -/
def serOptStr : Option Str → List Nat
  | none => [0]
  | some s => 1 :: serStr s

/-- bincode serialization of an `Entry`: its six fields in order, with no
framing. -/
def serEntry (e : Entry) : List Nat :=
  serStr e.id ++ serStr e.title ++ serOptStr e.username ++
    serOptStr e.password ++ serOptStr e.url ++ serOptStr e.note

/-- bincode serialization of the tuple `(id, entry)` written by the
full-rewrite store's `write_entry`. -/
def serKeyed (k : Str) (e : Entry) : List Nat := serStr k ++ serEntry e

/-- bincode serialization of the tuple `(id, position)` written by the
indexed store's `write_index` (byte-identical to serializing an
`IndexEntry` struct). -/
def serIndexRecord (id : Str) (p : Position) : List Nat :=
  serStr id ++ u64le p.offset ++ u64le p.length

/-- bincode deserialization of a string from a byte stream: returns the
string and the unconsumed rest, or `none` when the stream is too short. -/
def deStr (bs : List Nat) : Option (Str × List Nat) :=
  if bs.length < 8 then none
  else
    let n := u64dec (bs.take 8)
    let rest := bs.drop 8
    if rest.length < n then none
    else some (rest.take n, rest.drop n)

/-- bincode deserialization of an `Option<String>`: a tag byte other than
0 or 1 is a decode error. -/
def deOptStr (bs : List Nat) : Option (Option Str × List Nat) :=
  match bs with
  | 0 :: rest => some (none, rest)
  | 1 :: rest => (deStr rest).map fun p => (some p.1, p.2)
  | _ => none

/-- bincode deserialization of a `u64`. -/
def deU64 (bs : List Nat) : Option (Nat × List Nat) :=
  if bs.length < 8 then none else some (u64dec (bs.take 8), bs.drop 8)

/-- bincode deserialization of an `Entry` (fields in order; trailing bytes
are returned unconsumed, as bincode's legacy `deserialize` allows them). -/
def deEntry (bs : List Nat) : Option (Entry × List Nat) := do
  let (id, bs) ← deStr bs
  let (title, bs) ← deStr bs
  let (username, bs) ← deOptStr bs
  let (password, bs) ← deOptStr bs
  let (url, bs) ← deOptStr bs
  let (note, bs) ← deOptStr bs
  some (⟨id, title, username, password, url, note⟩, bs)

/-- bincode deserialization of the `(String, Entry)` tuple stored by the
full-rewrite store. -/
def deKeyed (bs : List Nat) : Option ((Str × Entry) × List Nat) := do
  let (k, bs) ← deStr bs
  let (e, bs) ← deEntry bs
  some ((k, e), bs)

/-- bincode deserialization of one `IndexEntry`. -/
def deIndexEntry (bs : List Nat) : Option (IndexEntry × List Nat) := do
  let (id, bs) ← deStr bs
  let (off, bs) ← deU64 bs
  let (len, bs) ← deU64 bs
  some (⟨id, ⟨off, len⟩⟩, bs)

/-- Well-formedness of an entry: its serialized form fits a `u64` length
field (true of every entry a real process can hold in memory). -/
def Entry.wf (e : Entry) : Bool := (serEntry e).length < U64

/-- Rust `read_exact` after a `seek` to `off`: succeeds exactly when the
requested `n` bytes lie within the file. -/
def readExactAt (file : List Nat) (off n : Nat) : Option (List Nat) :=
  let s := (file.drop off).take n
  if s.length = n then some s else none

/-- Error type of the full-rewrite store, declared locally in
`binary_file_entry_store.rs` with exactly the two variants `IoError` and
`SerializationError`. -/
inductive FullStoreError where
  | ioError
  | serializationError
deriving DecidableEq, Repr, Fintype

/-- Shared error type of `binary_store_error.rs`, used by the indexed
store and its index iterator: `IoError`, `SerializationError`,
`IndexRecordTooLarge`. -/
inductive BinaryStoreError where
  | ioError
  | serializationError
  | indexRecordTooLarge
deriving DecidableEq, Repr, Fintype

/-- One step of `BinaryRecordIterator::next` on the remaining bytes of the
stream. `read_u64` fails with `UnexpectedEof` whenever fewer than 8 bytes
remain — that arm returns `None` (end of sequence), so both a clean EOF
and an EOF part-way through the length field end the iteration. A short
payload read is a propagated `IoError`; a payload that does not decode is
a `SerializationError`. -/
def recordNext (bytes : List Nat) :
    Option (Except FullStoreError (Str × Entry) × List Nat) :=
  if bytes.length < 8 then none
  else
    let len := u64dec (bytes.take 8)
    let rest := bytes.drop 8
    if rest.length < len then some (.error .ioError, [])
    else
      match deKeyed (rest.take len) with
      | some (kv, _) => some (.ok kv, rest.drop len)
      | none => some (.error .serializationError, rest.drop len)

/-- Driving `BinaryRecordIterator` to the end, as every consumer in the
full-rewrite store does: collect records in order, stopping at the first
error (which each consumer propagates with `?`). The fuel argument is an
upper bound on the number of steps; each step consumes at least 8 bytes. -/
def runRecordIterF : Nat → List Nat → Except FullStoreError (List (Str × Entry))
  | 0, _ => .ok []
  | fuel + 1, bytes =>
    match recordNext bytes with
    | none => .ok []
    | some (.error e, _) => .error e
    | some (.ok kv, rest) => (runRecordIterF fuel rest).map (kv :: ·)

/-- Full drain of `BinaryRecordIterator` over a byte stream. -/
def runRecordIter (bytes : List Nat) : Except FullStoreError (List (Str × Entry)) :=
  runRecordIterF (bytes.length + 1) bytes

/-- The fixed index slot width (`INDEX_RECORD_SIZE` = 52 bytes). -/
def INDEX_RECORD_SIZE : Nat := 52

/-- Driving `BinaryIndexIterator` to the end: each step `read_exact`s one
52-byte slot; any `UnexpectedEof` — clean boundary or short trailing
read — ends the sequence, a slot that does not decode is a
`SerializationError`. -/
def runIndexIterF : Nat → List Nat → Except BinaryStoreError (List IndexEntry)
  | 0, _ => .ok []
  | fuel + 1, bytes =>
    if bytes.length < INDEX_RECORD_SIZE then .ok []
    else
      match deIndexEntry (bytes.take INDEX_RECORD_SIZE) with
      | none => .error .serializationError
      | some (ie, _) =>
        (runIndexIterF fuel (bytes.drop INDEX_RECORD_SIZE)).map (ie :: ·)

/-- Full drain of `BinaryIndexIterator` over the index file bytes. -/
def runIndexIter (bytes : List Nat) : Except BinaryStoreError (List IndexEntry) :=
  runIndexIterF (bytes.length + 1) bytes

/-! ### The full-rewrite store (`binary_file_entry_store.rs`)

Its state is the data file's contents. Filesystem provisioning and the
remove-then-rename swap are environmental; the happy-path file transition
is modelled directly. -/

/-- One length-prefixed record as `BinaryFileEntryStore::write_entry` lays
it out: u64-LE length of the serialized `(entry.id, entry)` tuple, then
that tuple. The stored key is always `entry.id`. -/
def encRecord (k : Str) (e : Entry) : List Nat :=
  u64le (serKeyed k e).length ++ serKeyed k e

/-- Bytes `write_entry` appends for an entry: the record keyed by the
entry's own `id` field. -/
def writeEntryFR (e : Entry) : List Nat := encRecord e.id e

/-- `BinaryFileEntryStore::move_to_new_file`: stream every record of the
current file, keep those whose stored key is not in `deleting_keys`
(re-serializing each kept entry, which re-keys it by its own `id`), then
append the new entries; the result is the new file's contents. -/
def moveToNewFile (file : List Nat) (deletingKeys : List Str)
    (appending : List Entry) : Except FullStoreError (List Nat) :=
  match runRecordIter file with
  | .error e => .error e
  | .ok records =>
    .ok (((records.filter fun r => !(deletingKeys.contains r.1)).map
            fun r => writeEntryFR r.2).flatten ++
          (appending.map writeEntryFR).flatten)

/-- `BinaryFileEntryStore::save`: rebuild without the argument id, append
the new entry, swap. -/
def saveFR (file : List Nat) (id : Str) (value : Entry) :
    Except FullStoreError (List Nat) :=
  moveToNewFile file [id] [value]

/-- `BinaryFileEntryStore::delete`: rebuild without the id, append
nothing. -/
def deleteFR (file : List Nat) (id : Str) : Except FullStoreError (List Nat) :=
  moveToNewFile file [id] []

/-- `BinaryFileEntryStore::load`, scanning lazily: return the first record
whose stored key equals the argument, `none` at end of stream, and
propagate the first iterator error met before a match. -/
def loadFRF : Nat → Str → List Nat → Except FullStoreError (Option Entry)
  | 0, _, _ => .ok none
  | fuel + 1, id, bytes =>
    match recordNext bytes with
    | none => .ok none
    | some (.error e, _) => .error e
    | some (.ok kv, rest) =>
      if kv.1 = id then .ok (some kv.2) else loadFRF fuel id rest

/-- `BinaryFileEntryStore::load` over the file's contents. -/
def loadFR (file : List Nat) (id : Str) : Except FullStoreError (Option Entry) :=
  loadFRF (file.length + 1) id file

/-- `BinaryFileEntryStore::search`: drain the iterator, keep the entries
passing the filter, in file order. -/
def searchFR (file : List Nat) (filter : Entry → Bool) :
    Except FullStoreError (List Entry) :=
  (runRecordIter file).map fun rs => (rs.map (·.2)).filter filter

/-! ### The indexed store (`indexed_binary_file_entry_store.rs`) -/

/-- Lookup in the in-memory id→`Position` map. -/
def idxLookup (m : List (Str × Position)) (k : Str) : Option Position :=
  (m.find? fun p => p.1 == k).map (·.2)

/-- `HashMap::insert`: replace the value under an existing key, otherwise
add a new binding. -/
def idxInsert (m : List (Str × Position)) (k : Str) (v : Position) :
    List (Str × Position) :=
  if m.any fun p => p.1 == k then
    m.map fun p => if p.1 == k then (k, v) else p
  else m ++ [(k, v)]

/-- `HashMap::remove`. -/
def idxRemove (m : List (Str × Position)) (k : Str) : List (Str × Position) :=
  m.filter fun p => p.1 != k

/-- In-memory state of one `IndexedBinaryFileEntryStore` together with the
contents of its two files. -/
structure IndexedBinaryFileEntryStore where
  dataFile : List Nat
  indexFile : List Nat
  index : List (Str × Position)
  needs_index_rewrite : Bool
  needs_data_rewrite : Bool
deriving DecidableEq, Repr

namespace IndexedBinaryFileEntryStore

/-- `IndexedBinaryFileEntryStore::new` over given (possibly just created,
hence empty) file contents: the in-memory index starts empty and both
dirty flags start false, whatever the index file holds. -/
def new (dataFile indexFile : List Nat) : IndexedBinaryFileEntryStore :=
  { dataFile, indexFile, index := [],
    needs_index_rewrite := false, needs_data_rewrite := false }

end IndexedBinaryFileEntryStore

/-- `IndexedBinaryFileEntryStore::get`: seek to the position's offset,
`read_exact` its length (any failure, `UnexpectedEof` included, is a
propagated `IoError` here — no special casing), then decode an `Entry`. -/
def getEntry (file : List Nat) (pos : Position) : Except BinaryStoreError Entry :=
  match readExactAt file pos.offset pos.length with
  | none => .error .ioError
  | some buf =>
    match deEntry buf with
    | some (e, _) => .ok e
    | none => .error .serializationError

/-- The 52-byte slot `write_index` emits for one fitting pair: the
serialized bytes copied into a zeroed `INDEX_RECORD_SIZE` buffer. -/
def padIndexRecord (id : Str) (p : Position) : List Nat :=
  serIndexRecord id p ++
    List.replicate (INDEX_RECORD_SIZE - (serIndexRecord id p).length) 0

/-- `IndexedBinaryFileEntryStore::write_index` applied to a snapshot of
the map: serialize each `(id, position)` pair, reject a pair whose
encoding exceeds the 52-byte slot before writing anything for it, zero-pad
a fitting pair to exactly 52 bytes. Returns the bytes written to the file
up to success or failure, and the failure if any. -/
def write_index : List (Str × Position) → List Nat × Option BinaryStoreError
  | [] => ([], none)
  | (id, pos) :: rest =>
    if INDEX_RECORD_SIZE < (serIndexRecord id pos).length then
      ([], some .indexRecordTooLarge)
    else
      let tailRes := write_index rest
      (padIndexRecord id pos ++ tailRes.1, tailRes.2)

/-- `IndexedBinaryFileEntryStore::load_index`: drain the index iterator
and fold the records into a fresh map (later slots override earlier ones
with the same id). -/
def load_index (bytes : List Nat) :
    Except BinaryStoreError (List (Str × Position)) :=
  (runIndexIter bytes).map fun l =>
    l.foldl (fun m ie => idxInsert m ie.id ie.position) []

namespace IndexedBinaryFileEntryStore

/-- `reload_index`: replace the in-memory index by decoding the index
file; on any failure log and keep the in-memory index (fail-soft). Flags
are untouched in both cases. -/
def reload_index (st : IndexedBinaryFileEntryStore) :
    IndexedBinaryFileEntryStore :=
  match load_index st.indexFile with
  | .ok m => { st with index := m }
  | .error _ => st

/-- `rewrite_index`, with an explicit flag injecting failure of the
remove-then-rename swap: on any failure the in-memory state is unchanged
(`needs_index_rewrite` is cleared only after a successful swap). -/
def rewrite_index_run (swapFails : Bool) (st : IndexedBinaryFileEntryStore) :
    IndexedBinaryFileEntryStore × Except BinaryStoreError Unit :=
  match write_index st.index with
  | (_, some e) => (st, .error e)
  | (bytes, none) =>
    if swapFails then (st, .error .ioError)
    else ({ st with indexFile := bytes, needs_index_rewrite := false }, .ok ())

/-- `rewrite_index` on the happy filesystem path. -/
def rewrite_index (st : IndexedBinaryFileEntryStore) :
    Except BinaryStoreError IndexedBinaryFileEntryStore :=
  match st.rewrite_index_run false with
  | (st', .ok _) => .ok st'
  | (_, .error e) => .error e

/-- `save`: append the serialized entry at end-of-file, record its
position in the in-memory index, set `needs_index_rewrite`. The in-memory
transition is total; file-open failures are environmental. -/
def save (st : IndexedBinaryFileEntryStore) (id : Str) (value : Entry) :
    IndexedBinaryFileEntryStore :=
  let ser := serEntry value
  { st with
    dataFile := st.dataFile ++ ser,
    index := idxInsert st.index id ⟨st.dataFile.length, ser.length⟩,
    needs_index_rewrite := true }

/-- `load`: O(1) map lookup, then a positioned read of the data file;
an absent key is `Ok(None)`. -/
def load (st : IndexedBinaryFileEntryStore) (key : Str) :
    Except BinaryStoreError (Option Entry) :=
  match idxLookup st.index key with
  | some pos => (getEntry st.dataFile pos).map some
  | none => .ok none

/-- `delete`: remove the id from the in-memory index only and set
`needs_data_rewrite`; always succeeds, touches no file. -/
def delete (st : IndexedBinaryFileEntryStore) (id : Str) :
    IndexedBinaryFileEntryStore :=
  { st with index := idxRemove st.index id, needs_data_rewrite := true }

end IndexedBinaryFileEntryStore

/-- The offset-sorted snapshot `search` takes of the index
(`sort_by_key(position.offset)`, a stable sort). -/
def sortIndex (m : List (Str × Position)) : List (Str × Position) :=
  m.mergeSort fun a b => decide (a.2.offset ≤ b.2.offset)

/-- The read loop of `IndexedBinaryFileEntryStore::search` over the sorted
snapshot: read and decode each referenced range (errors propagate), keep
the entries passing the filter, in snapshot order. -/
def searchGo (file : List Nat) (filter : Entry → Bool) :
    List (Str × Position) → Except BinaryStoreError (List Entry)
  | [] => .ok []
  | (_, pos) :: rest =>
    match getEntry file pos with
    | .error e => .error e
    | .ok e =>
      (searchGo file filter rest).map fun es =>
        if filter e then e :: es else es

namespace IndexedBinaryFileEntryStore

/-- `search`: sort the index snapshot by ascending offset, then read each
range and filter. -/
def search (st : IndexedBinaryFileEntryStore) (filter : Entry → Bool) :
    Except BinaryStoreError (List Entry) :=
  searchGo st.dataFile filter (sortIndex st.index)

end IndexedBinaryFileEntryStore

/-- The compaction loop of `write_data`: for each `(id, position)` of the
in-memory index in iteration order, re-read the entry from the old data
file, re-serialize it, append it to the new file (`acc`), and record its
new position; the first read/decode failure aborts the loop. Returns the
new file's bytes and the new index. -/
def write_data_loop : List (Str × Position) → List Nat → List Nat →
    Except BinaryStoreError (List Nat × List (Str × Position))
  | [], _old, acc => .ok (acc, [])
  | (k, pos) :: rest, old, acc =>
    match getEntry old pos with
    | .error e => .error e
    | .ok entry =>
      let ser := serEntry entry
      match write_data_loop rest old (acc ++ ser) with
      | .error e => .error e
      | .ok (bytes, idx) => .ok (bytes, (k, ⟨acc.length, ser.length⟩) :: idx)

namespace IndexedBinaryFileEntryStore

/-- `write_data` (compaction), with an explicit flag injecting failure of
the remove-then-rename swap. The in-memory index is replaced with the new
positions BEFORE the swap, so a swap failure leaves the store with the new
index, the old data file, and `needs_data_rewrite` still set; only a fully
successful run installs the new file and clears the flag. -/
def write_data_run (swapFails : Bool) (st : IndexedBinaryFileEntryStore) :
    IndexedBinaryFileEntryStore × Except BinaryStoreError Unit :=
  match write_data_loop st.index st.dataFile [] with
  | .error e => (st, .error e)
  | .ok (bytes, newIndex) =>
    let st1 := { st with index := newIndex }
    if swapFails then (st1, .error .ioError)
    else ({ st1 with dataFile := bytes, needs_data_rewrite := false }, .ok ())

/-- `write_data` on the happy filesystem path. -/
def write_data (st : IndexedBinaryFileEntryStore) :
    Except BinaryStoreError IndexedBinaryFileEntryStore :=
  match st.write_data_run false with
  | (st', .ok _) => .ok st'
  | (_, .error e) => .error e

end IndexedBinaryFileEntryStore

/-! ### Basic facts about the binary encoding -/

theorem u64le_length (n : Nat) : (u64le n).length = 8 := rfl

theorem u64dec_u64le (n : Nat) : u64dec (u64le n) = n % U64 := by
  simp only [u64le, u64dec, U64]
  omega

theorem u64dec_lt (bs : List Nat) : u64dec bs < U64 := by
  unfold u64dec
  split
  · exact Nat.mod_lt _ (by simp [U64])
  · simp [U64]

theorem U64_pos : 0 < U64 := by simp [U64]

theorem take_append_of_length {α : Type} {l : List α} (t : List α) {n : Nat}
    (h : l.length = n) : (l ++ t).take n = l := by
  subst h; exact List.take_left l t

theorem drop_append_of_length {α : Type} {l : List α} (t : List α) {n : Nat}
    (h : l.length = n) : (l ++ t).drop n = t := by
  subst h; exact List.drop_left l t

theorem serStr_length (s : Str) : (serStr s).length = 8 + s.length := by
  simp [serStr, u64le]; omega

theorem deStr_serStr (s : Str) (t : List Nat) (h : s.length < U64) :
    deStr (serStr s ++ t) = some (s, t) := by
  have hassoc : serStr s ++ t = u64le s.length ++ (s ++ t) := by
    simp [serStr]
  rw [hassoc]
  unfold deStr
  rw [take_append_of_length _ (u64le_length s.length),
    drop_append_of_length _ (u64le_length s.length), u64dec_u64le,
    Nat.mod_eq_of_lt h]
  rw [if_neg (by simp [u64le]), if_neg (by simp),
    take_append_of_length _ rfl, drop_append_of_length _ rfl]

theorem deOptStr_serOptStr (o : Option Str) (t : List Nat)
    (h : (serOptStr o).length < U64) :
    deOptStr (serOptStr o ++ t) = some (o, t) := by
  cases o with
  | none => rfl
  | some s =>
    have hs : s.length < U64 := by
      simp [serOptStr, serStr_length] at h
      omega
    simp [serOptStr, deOptStr, deStr_serStr s t hs]

theorem deU64_u64le (n : Nat) (t : List Nat) (h : n < U64) :
    deU64 (u64le n ++ t) = some (n, t) := by
  unfold deU64
  rw [take_append_of_length _ (u64le_length n),
    drop_append_of_length _ (u64le_length n), u64dec_u64le,
    Nat.mod_eq_of_lt h, if_neg (by simp [u64le])]

theorem serEntry_parts_lt {e : Entry} (h : e.wf = true) :
    e.id.length < U64 ∧ e.title.length < U64 ∧
      (serOptStr e.username).length < U64 ∧
      (serOptStr e.password).length < U64 ∧
      (serOptStr e.url).length < U64 ∧ (serOptStr e.note).length < U64 := by
  simp only [Entry.wf, decide_eq_true_eq] at h
  simp only [serEntry, List.length_append, serStr_length] at h
  refine ⟨by omega, by omega, by omega, by omega, by omega, by omega⟩

theorem deEntry_serEntry (e : Entry) (t : List Nat) (h : e.wf = true) :
    deEntry (serEntry e ++ t) = some (e, t) := by
  obtain ⟨h1, h2, h3, h4, h5, h6⟩ := serEntry_parts_lt h
  simp only [serEntry, List.append_assoc, deEntry, Option.bind_eq_bind]
  simp [deStr_serStr _ _ h1, deStr_serStr _ _ h2, deOptStr_serOptStr _ _ h3,
    deOptStr_serOptStr _ _ h4, deOptStr_serOptStr _ _ h5,
    deOptStr_serOptStr _ _ h6]

theorem serKeyed_wf {k : Str} {e : Entry} (h : (serKeyed k e).length < U64) :
    k.length < U64 ∧ e.wf = true := by
  simp only [serKeyed, List.length_append, serStr_length] at h
  exact ⟨by omega, by simp only [Entry.wf, decide_eq_true_eq]; omega⟩

theorem deKeyed_serKeyed (k : Str) (e : Entry) (t : List Nat)
    (h : (serKeyed k e).length < U64) :
    deKeyed (serKeyed k e ++ t) = some ((k, e), t) := by
  obtain ⟨hk, he⟩ := serKeyed_wf h
  simp only [serKeyed, List.append_assoc, deKeyed, Option.bind_eq_bind]
  simp [deStr_serStr _ _ hk, deEntry_serEntry _ _ he]

theorem deIndexEntry_serIndexRecord (id : Str) (p : Position) (t : List Nat)
    (hid : id.length < U64) (hoff : p.offset < U64) (hlen : p.length < U64) :
    deIndexEntry (serIndexRecord id p ++ t) = some (⟨id, p⟩, t) := by
  simp only [serIndexRecord, List.append_assoc, deIndexEntry,
    Option.bind_eq_bind]
  simp [deStr_serStr _ _ hid, deU64_u64le _ _ hoff, deU64_u64le _ _ hlen]

/-! ### Consumption equations: a successful decode consumes exactly the
serialized length of the decoded value, so values decoded from a real
(< 2^64 byte) buffer are well-formed. -/

theorem deStr_some {bs : List Nat} {s : Str} {rest : List Nat}
    (h : deStr bs = some (s, rest)) :
    bs.length = (serStr s).length + rest.length ∧ s.length < U64 := by
  simp only [deStr] at h
  split at h
  · exact absurd h (by simp)
  next h8 =>
    split at h
    · exact absurd h (by simp)
    next hn =>
      obtain ⟨hs, hr⟩ := Prod.mk.injEq .. ▸ Option.some.inj h
      subst hs; subst hr
      have hlt := u64dec_lt (bs.take 8)
      constructor
      · simp only [serStr_length, List.length_take, List.length_drop] at *
        omega
      · simp only [List.length_take, List.length_drop] at *
        omega

theorem deOptStr_some {bs : List Nat} {o : Option Str} {rest : List Nat}
    (h : deOptStr bs = some (o, rest)) :
    bs.length = (serOptStr o).length + rest.length := by
  unfold deOptStr at h
  split at h
  · obtain ⟨ho, hr⟩ := Prod.mk.injEq .. ▸ Option.some.inj h
    subst ho; subst hr
    simp only [serOptStr, List.length_cons, List.length_nil]
    omega
  · next t _ =>
    obtain ⟨⟨s, r⟩, hde, hmap⟩ := Option.map_eq_some'.mp h
    obtain ⟨ho, hr⟩ := Prod.mk.injEq .. ▸ hmap
    subst ho; subst hr
    have := (deStr_some hde).1
    simp only [serOptStr, List.length_cons]
    simp only [List.length_cons] at *
    omega
  · exact absurd h (by simp)

theorem deEntry_some {bs : List Nat} {e : Entry} {rest : List Nat}
    (h : deEntry bs = some (e, rest)) :
    bs.length = (serEntry e).length + rest.length := by
  simp only [deEntry, Option.bind_eq_bind, Option.bind_eq_some] at h
  obtain ⟨⟨id, bs1⟩, h1, h⟩ := h
  obtain ⟨⟨title, bs2⟩, h2, h⟩ := h
  obtain ⟨⟨username, bs3⟩, h3, h⟩ := h
  obtain ⟨⟨password, bs4⟩, h4, h⟩ := h
  obtain ⟨⟨url, bs5⟩, h5, h⟩ := h
  obtain ⟨⟨note, bs6⟩, h6, h⟩ := h
  obtain ⟨he, hr⟩ := Prod.mk.injEq .. ▸ Option.some.inj h
  subst he; subst hr
  have e1 := (deStr_some h1).1
  have e2 := (deStr_some h2).1
  have e3 := deOptStr_some h3
  have e4 := deOptStr_some h4
  have e5 := deOptStr_some h5
  have e6 := deOptStr_some h6
  dsimp only at e2 e3 e4 e5 e6
  simp only [serEntry, List.length_append]
  omega

theorem deKeyed_some {bs : List Nat} {k : Str} {e : Entry} {rest : List Nat}
    (h : deKeyed bs = some ((k, e), rest)) :
    bs.length = (serKeyed k e).length + rest.length := by
  simp only [deKeyed, Option.bind_eq_bind, Option.bind_eq_some] at h
  obtain ⟨⟨k1, bs1⟩, h1, h⟩ := h
  obtain ⟨⟨e1, bs2⟩, h2, h⟩ := h
  obtain ⟨hke, hr⟩ := Prod.mk.injEq .. ▸ Option.some.inj h
  obtain ⟨hk, he⟩ := Prod.mk.injEq .. ▸ hke
  subst hk; subst he; subst hr
  have c1 := (deStr_some h1).1
  have c2 := deEntry_some h2
  dsimp only at c2
  simp only [serKeyed, List.length_append]
  omega

theorem readExactAt_some {file : List Nat} {off n : Nat} {s : List Nat}
    (h : readExactAt file off n = some s) :
    s = (file.drop off).take n ∧ s.length = n := by
  simp only [readExactAt] at h
  split at h
  · exact ⟨(Option.some.inj h).symm, by
      rw [← Option.some.inj h]; assumption⟩
  · exact absurd h (by simp)

theorem readExactAt_some_le {file : List Nat} {off n : Nat} {s : List Nat}
    (h : readExactAt file off n = some s) : n ≤ file.length := by
  obtain ⟨hs, hn⟩ := readExactAt_some h
  have hmin : s.length = min n (file.length - off) := by
    rw [hs]; simp [List.length_take]
  omega

/-- An entry read back through `get` from a real file is well-formed. -/
theorem getEntry_ok_wf {file : List Nat} {pos : Position} {e : Entry}
    (hf : file.length < U64) (h : getEntry file pos = .ok e) : e.wf = true := by
  unfold getEntry at h
  split at h
  · exact absurd h (by simp)
  next buf hbuf =>
    split at h
    next e' rest hde =>
      have hee : e' = e := by
        injection h
      subst hee
      have hcons := deEntry_some hde
      have hbl : buf.length ≤ file.length := by
        obtain ⟨-, hn⟩ := readExactAt_some hbuf
        have := readExactAt_some_le hbuf
        omega
      simp only [Entry.wf, decide_eq_true_eq]
      omega
    · exact absurd h (by simp)

/-! ### Record iterator lemmas -/

theorem recordNext_short {bytes : List Nat} (h : bytes.length < 8) :
    recordNext bytes = none := by
  simp [recordNext, h]

theorem runRecordIterF_succ (fuel : Nat) (bytes : List Nat) :
    runRecordIterF (fuel + 1) bytes =
      match recordNext bytes with
      | none => .ok []
      | some (.error e, _) => .error e
      | some (.ok kv, rest) => (runRecordIterF fuel rest).map (kv :: ·) := rfl

theorem loadFRF_succ (fuel : Nat) (id : Str) (bytes : List Nat) :
    loadFRF (fuel + 1) id bytes =
      match recordNext bytes with
      | none => .ok none
      | some (.error e, _) => .error e
      | some (.ok kv, rest) =>
        if kv.1 = id then .ok (some kv.2) else loadFRF fuel id rest := rfl

theorem encRecord_length (k : Str) (e : Entry) :
    (encRecord k e).length = 8 + (serKeyed k e).length := by
  simp [encRecord, u64le]; omega

theorem recordNext_encRecord {k : Str} {e : Entry} (t : List Nat)
    (h : (serKeyed k e).length < U64) :
    recordNext (encRecord k e ++ t) = some (.ok (k, e), t) := by
  have hassoc : encRecord k e ++ t =
      u64le (serKeyed k e).length ++ (serKeyed k e ++ t) := by
    simp [encRecord]
  rw [hassoc]
  unfold recordNext
  rw [take_append_of_length _ (u64le_length _),
    drop_append_of_length _ (u64le_length _), u64dec_u64le, Nat.mod_eq_of_lt h]
  rw [if_neg (by simp [u64le]), if_neg (by simp)]
  rw [take_append_of_length _ rfl, drop_append_of_length _ rfl]
  have hde : deKeyed (serKeyed k e) = some ((k, e), []) := by
    have := deKeyed_serKeyed k e [] h
    simpa using this
  rw [hde]

theorem recordNext_ok_inv {bytes : List Nat} {kv : Str × Entry}
    {rest : List Nat} (h : recordNext bytes = some (.ok kv, rest)) :
    (serKeyed kv.1 kv.2).length + 8 ≤ bytes.length ∧
      rest.length < bytes.length := by
  simp only [recordNext] at h
  split at h
  · exact absurd h (by simp)
  next h8 =>
    split at h
    · exact absurd h (by simp)
    next hlen =>
      split at h
      next kv' rest' hde =>
        obtain ⟨hkv, hr⟩ := Prod.mk.injEq .. ▸ Option.some.inj h
        have hkv2 : kv' = kv := by injection hkv
        subst hr
        obtain ⟨k, e⟩ := kv'
        subst hkv2
        have hcons := deKeyed_some hde
        simp only [List.length_take, List.length_drop] at hcons
        have hlt := u64dec_lt (bytes.take 8)
        simp only [List.length_drop] at hlen
        refine ⟨by dsimp only; omega, ?_⟩
        simp only [List.length_drop]
        omega
      next hde => exact absurd h (by simp)

theorem runRecordIterF_congr :
    ∀ (f : Nat) (g : Nat) (bytes : List Nat), bytes.length < f →
      bytes.length < g → runRecordIterF f bytes = runRecordIterF g bytes := by
  intro f
  induction f with
  | zero => intro g bytes h _; omega
  | succ f ih =>
    intro g bytes hf hg
    cases g with
    | zero => omega
    | succ g =>
      rw [runRecordIterF_succ f bytes, runRecordIterF_succ g bytes]
      cases hnext : recordNext bytes with
      | none => rfl
      | some item =>
        obtain ⟨res, rest⟩ := item
        cases res with
        | error e => rfl
        | ok kv =>
          have hlt := (recordNext_ok_inv hnext).2
          dsimp only
          rw [ih g rest (by omega) (by omega)]

theorem runRecordIter_short {bytes : List Nat} (h : bytes.length < 8) :
    runRecordIter bytes = .ok [] := by
  unfold runRecordIter
  rw [runRecordIterF_succ, recordNext_short h]

theorem runRecordIter_cons {k : Str} {e : Entry} (t : List Nat)
    (h : (serKeyed k e).length < U64) :
    runRecordIter (encRecord k e ++ t) = (runRecordIter t).map ((k, e) :: ·) := by
  unfold runRecordIter
  rw [runRecordIterF_succ, recordNext_encRecord t h]
  dsimp only
  rw [runRecordIterF_congr (encRecord k e ++ t).length (t.length + 1) t
    (by simp only [List.length_append, encRecord_length]; omega) (by omega)]

theorem runRecordIter_midPayload {len : Nat} {payload : List Nat}
    (hlen : len < U64) (hshort : payload.length < len) :
    runRecordIter (u64le len ++ payload) = .error .ioError := by
  have hnext : recordNext (u64le len ++ payload) = some (.error .ioError, []) := by
    unfold recordNext
    rw [take_append_of_length _ (u64le_length _),
      drop_append_of_length _ (u64le_length _), u64dec_u64le,
      Nat.mod_eq_of_lt hlen]
    rw [if_neg (by simp [u64le]), if_pos hshort]
  unfold runRecordIter
  rw [runRecordIterF_succ, hnext]

theorem runRecordIter_flatten (rs : List (Str × Entry))
    (h : ∀ r ∈ rs, (serKeyed r.1 r.2).length < U64) :
    runRecordIter ((rs.map fun r => encRecord r.1 r.2).flatten) = .ok rs := by
  induction rs with
  | nil => exact runRecordIter_short (by simp)
  | cons r rs ih =>
    obtain ⟨k, e⟩ := r
    simp only [List.map_cons, List.flatten_cons]
    rw [runRecordIter_cons _ (h (k, e) (by simp))]
    rw [ih fun x hx => h x (by simp [hx])]
    rfl

theorem runRecordIterF_ok_bound :
    ∀ (fuel : Nat) (bytes : List Nat) (records : List (Str × Entry)),
      runRecordIterF fuel bytes = .ok records →
      ∀ r ∈ records, (serKeyed r.1 r.2).length ≤ bytes.length := by
  intro fuel
  induction fuel with
  | zero =>
    intro bytes records h r hr
    simp only [runRecordIterF] at h
    obtain rfl : ([] : List (Str × Entry)) = records := by injection h
    simp at hr
  | succ fuel ih =>
    intro bytes records h r hr
    simp only [runRecordIterF] at h
    split at h
    · obtain rfl : ([] : List (Str × Entry)) = records := by injection h
      simp at hr
    · exact absurd h (by simp)
    next kv rest hnext =>
      cases htail : runRecordIterF fuel rest with
      | error e => rw [htail] at h; exact absurd h (by simp [Except.map])
      | ok tail =>
        rw [htail] at h
        obtain rfl : kv :: tail = records := by
          simpa [Except.map] using h
        obtain ⟨hkv, hlt⟩ := recordNext_ok_inv hnext
        rcases List.mem_cons.mp hr with hr1 | hr1
        · subst hr1; omega
        · have := ih rest tail htail r hr1
          omega

theorem runRecordIter_ok_bound {bytes : List Nat} {records : List (Str × Entry)}
    (h : runRecordIter bytes = .ok records) :
    ∀ r ∈ records, (serKeyed r.1 r.2).length ≤ bytes.length :=
  runRecordIterF_ok_bound _ bytes records h

/-! ### Lazy `load` scan lemmas -/

theorem loadFRF_congr :
    ∀ (f : Nat) (g : Nat) (id : Str) (bytes : List Nat), bytes.length < f →
      bytes.length < g → loadFRF f id bytes = loadFRF g id bytes := by
  intro f
  induction f with
  | zero => intro g id bytes h _; omega
  | succ f ih =>
    intro g id bytes hf hg
    cases g with
    | zero => omega
    | succ g =>
      rw [loadFRF_succ f id bytes, loadFRF_succ g id bytes]
      cases hnext : recordNext bytes with
      | none => rfl
      | some item =>
        obtain ⟨res, rest⟩ := item
        cases res with
        | error e => rfl
        | ok kv =>
          have hlt := (recordNext_ok_inv hnext).2
          dsimp only
          split
          · rfl
          · rw [ih g id rest (by omega) (by omega)]

theorem loadFR_short {bytes : List Nat} (id : Str) (h : bytes.length < 8) :
    loadFR bytes id = .ok none := by
  unfold loadFR
  rw [loadFRF_succ, recordNext_short h]

theorem loadFR_cons {k : Str} {e : Entry} (t : List Nat) (id : Str)
    (h : (serKeyed k e).length < U64) :
    loadFR (encRecord k e ++ t) id =
      if k = id then .ok (some e) else loadFR t id := by
  unfold loadFR
  rw [loadFRF_succ, recordNext_encRecord t h]
  dsimp only
  split
  · rfl
  · exact loadFRF_congr (encRecord k e ++ t).length (t.length + 1) id t
      (by simp only [List.length_append, encRecord_length]; omega) (by omega)

theorem loadFR_flatten_skip (l : List (Str × Entry)) (t : List Nat) (id : Str)
    (hb : ∀ r ∈ l, (serKeyed r.1 r.2).length < U64)
    (hk : ∀ r ∈ l, r.1 ≠ id) :
    loadFR ((l.map fun r => encRecord r.1 r.2).flatten ++ t) id = loadFR t id := by
  induction l with
  | nil => simp
  | cons r l ih =>
    obtain ⟨k, e⟩ := r
    simp only [List.map_cons, List.flatten_cons, List.append_assoc]
    rw [loadFR_cons _ id (hb (k, e) (by simp))]
    rw [if_neg (hk (k, e) (by simp))]
    exact ih (fun x hx => hb x (by simp [hx])) fun x hx => hk x (by simp [hx])

/-! ### Index iterator lemmas -/

theorem runIndexIterF_succ (fuel : Nat) (bytes : List Nat) :
    runIndexIterF (fuel + 1) bytes =
      if bytes.length < INDEX_RECORD_SIZE then .ok []
      else
        match deIndexEntry (bytes.take INDEX_RECORD_SIZE) with
        | none => .error .serializationError
        | some (ie, _) =>
          (runIndexIterF fuel (bytes.drop INDEX_RECORD_SIZE)).map (ie :: ·) := rfl

theorem runIndexIter_short {bytes : List Nat}
    (h : bytes.length < INDEX_RECORD_SIZE) : runIndexIter bytes = .ok [] := by
  unfold runIndexIter
  rw [runIndexIterF_succ, if_pos h]

theorem runIndexIterF_congr :
    ∀ (f : Nat) (g : Nat) (bytes : List Nat), bytes.length < f →
      bytes.length < g → runIndexIterF f bytes = runIndexIterF g bytes := by
  intro f
  induction f with
  | zero => intro g bytes h _; omega
  | succ f ih =>
    intro g bytes hf hg
    cases g with
    | zero => omega
    | succ g =>
      rw [runIndexIterF_succ f bytes, runIndexIterF_succ g bytes]
      by_cases hs : bytes.length < INDEX_RECORD_SIZE
      · rw [if_pos hs, if_pos hs]
      · rw [if_neg hs, if_neg hs]
        cases hde : deIndexEntry (bytes.take INDEX_RECORD_SIZE) with
        | none => rfl
        | some p =>
          obtain ⟨ie, left⟩ := p
          dsimp only
          have hdl : (bytes.drop INDEX_RECORD_SIZE).length < bytes.length := by
            simp only [List.length_drop, INDEX_RECORD_SIZE] at *
            omega
          rw [ih g (bytes.drop INDEX_RECORD_SIZE) (by omega) (by omega)]

theorem padIndexRecord_length {id : Str} {p : Position}
    (hfit : (serIndexRecord id p).length ≤ INDEX_RECORD_SIZE) :
    (padIndexRecord id p).length = INDEX_RECORD_SIZE := by
  simp only [padIndexRecord, List.length_append, List.length_replicate]
  omega

theorem runIndexIter_cons {id : Str} {p : Position} (rest : List Nat)
    (hfit : (serIndexRecord id p).length ≤ INDEX_RECORD_SIZE)
    (hid : id.length < U64) (hoff : p.offset < U64) (hlen : p.length < U64) :
    runIndexIter (padIndexRecord id p ++ rest) =
      (runIndexIter rest).map (⟨id, p⟩ :: ·) := by
  have hpl := padIndexRecord_length hfit
  have hde : deIndexEntry ((padIndexRecord id p ++ rest).take INDEX_RECORD_SIZE) =
      some (⟨id, p⟩,
        List.replicate (INDEX_RECORD_SIZE - (serIndexRecord id p).length) 0) := by
    rw [take_append_of_length _ hpl]
    unfold padIndexRecord
    exact deIndexEntry_serIndexRecord id p _ hid hoff hlen
  unfold runIndexIter
  rw [runIndexIterF_succ, if_neg (by simp [hpl]), hde]
  dsimp only
  rw [drop_append_of_length _ hpl]
  rw [runIndexIterF_congr (padIndexRecord id p ++ rest).length (rest.length + 1)
    rest (by simp [hpl, INDEX_RECORD_SIZE]) (by omega)]

/-! ### In-memory map lemmas -/

theorem idxLookup_nil (k : Str) : idxLookup [] k = none := rfl

theorem idxLookup_cons (p : Str × Position) (m : List (Str × Position))
    (k : Str) :
    idxLookup (p :: m) k = if p.1 == k then some p.2 else idxLookup m k := by
  simp only [idxLookup, List.find?_cons]
  by_cases h : (p.1 == k) = true <;> simp [h]

theorem idxLookup_overwrite (m : List (Str × Position)) (k : Str)
    (v : Position) (hany : (m.any fun p => p.1 == k) = true) :
    idxLookup (m.map fun p => if p.1 == k then (k, v) else p) k = some v := by
  induction m with
  | nil => simp at hany
  | cons p m ih =>
    simp only [List.any_cons, Bool.or_eq_true] at hany
    by_cases hpk : (p.1 == k) = true
    · rw [List.map_cons, if_pos hpk, idxLookup_cons]
      simp
    · rw [List.map_cons, if_neg hpk, idxLookup_cons, if_neg hpk]
      exact ih (hany.resolve_left hpk)

theorem idxLookup_append_single (m : List (Str × Position)) (k : Str)
    (v : Position) (hnone : (m.any fun p => p.1 == k) = false) :
    idxLookup (m ++ [(k, v)]) k = some v := by
  induction m with
  | nil =>
    rw [List.nil_append, idxLookup_cons]
    simp
  | cons p m ih =>
    simp only [List.any_cons, Bool.or_eq_false_iff] at hnone
    rw [List.cons_append, idxLookup_cons, if_neg (by simp [hnone.1])]
    exact ih hnone.2

theorem idxLookup_insert (m : List (Str × Position)) (k : Str) (v : Position) :
    idxLookup (idxInsert m k v) k = some v := by
  unfold idxInsert
  by_cases hany : (m.any fun p => p.1 == k) = true
  · rw [if_pos hany]
    exact idxLookup_overwrite m k v hany
  · rw [if_neg hany]
    exact idxLookup_append_single m k v
      (by rw [Bool.not_eq_true] at hany; exact hany)

theorem idxLookup_remove_self (m : List (Str × Position)) (k : Str) :
    idxLookup (idxRemove m k) k = none := by
  unfold idxRemove
  induction m with
  | nil => rfl
  | cons p m ih =>
    rw [List.filter_cons]
    by_cases hpk : (p.1 != k) = true
    · rw [if_pos hpk, idxLookup_cons, if_neg (by simpa using hpk)]
      exact ih
    · rw [if_neg hpk]
      exact ih

theorem idxLookup_remove_ne (m : List (Str × Position)) (k k' : Str)
    (h : k' ≠ k) : idxLookup (idxRemove m k) k' = idxLookup m k' := by
  unfold idxRemove
  induction m with
  | nil => rfl
  | cons p m ih =>
    rw [List.filter_cons]
    by_cases hpk : (p.1 != k) = true
    · rw [if_pos hpk, idxLookup_cons, idxLookup_cons]
      by_cases hp' : (p.1 == k') = true
      · rw [if_pos hp', if_pos hp']
      · rw [if_neg hp', if_neg hp']
        exact ih
    · rw [if_neg hpk]
      have hpkk : p.1 = k := by
        simpa using hpk
      have hp' : (p.1 == k') = false := by
        simp [hpkk]
        exact fun hh => h hh.symm
      rw [idxLookup_cons, if_neg (by simp [hp'])]
      exact ih

theorem idxLookup_mem_nodup {m : List (Str × Position)}
    (hnd : (m.map Prod.fst).Nodup) {k : Str} {q : Position}
    (hmem : (k, q) ∈ m) : idxLookup m k = some q := by
  induction m with
  | nil => simp at hmem
  | cons p m ih =>
    simp only [List.map_cons, List.nodup_cons] at hnd
    rcases List.mem_cons.mp hmem with heq | htail
    · subst heq
      rw [idxLookup_cons]
      simp
    · have hp1 : (p.1 == k) = false := by
        have hk : k ∈ m.map Prod.fst :=
          List.mem_map.mpr ⟨(k, q), htail, rfl⟩
        have hne : p.1 ≠ k := fun hh => hnd.1 (hh ▸ hk)
        simp [hne]
      rw [idxLookup_cons, if_neg (by simp [hp1])]
      exact ih hnd.2 htail

/-! ### `write_index` lemmas -/

theorem write_index_all_fit (l : List (Str × Position))
    (h : ∀ q ∈ l, (serIndexRecord q.1 q.2).length ≤ INDEX_RECORD_SIZE) :
    write_index l = ((l.map fun q => padIndexRecord q.1 q.2).flatten, none) := by
  induction l with
  | nil => rfl
  | cons q l ih =>
    obtain ⟨id, pos⟩ := q
    have hfit := h (id, pos) (by simp)
    dsimp only at hfit
    simp only [write_index, List.append_eq]
    rw [if_neg (by omega)]
    rw [ih fun x hx => h x (by simp [hx])]
    simp

theorem write_index_too_large (pre : List (Str × Position)) (id : Str)
    (pos : Position) (rest : List (Str × Position))
    (hpre : ∀ q ∈ pre, (serIndexRecord q.1 q.2).length ≤ INDEX_RECORD_SIZE)
    (hbad : INDEX_RECORD_SIZE < (serIndexRecord id pos).length) :
    write_index (pre ++ (id, pos) :: rest) =
      ((pre.map fun q => padIndexRecord q.1 q.2).flatten,
        some .indexRecordTooLarge) := by
  induction pre with
  | nil =>
    simp only [List.nil_append, write_index, if_pos hbad, List.map_nil,
      List.flatten_nil]
  | cons q pre ih =>
    obtain ⟨i, p⟩ := q
    have hfit := hpre (i, p) (by simp)
    dsimp only at hfit
    simp only [List.cons_append, write_index, List.append_eq]
    rw [if_neg (by omega)]
    rw [ih fun x hx => hpre x (by simp [hx])]
    simp

/-! ### Compaction loop lemmas -/

theorem getEntry_of_readExact {file : List Nat} {q : Position} {e : Entry}
    (hre : readExactAt file q.offset q.length = some (serEntry e))
    (hwf : e.wf = true) : getEntry file q = .ok e := by
  have hrt : deEntry (serEntry e) = some (e, []) := by
    have := deEntry_serEntry e [] hwf
    simpa using this
  unfold getEntry
  rw [hre]
  dsimp only
  rw [hrt]

theorem write_data_loop_spec :
    ∀ {idx : List (Str × Position)} {es : List Entry} {old : List Nat}
      (acc : List Nat),
      List.Forall₂ (fun p e => getEntry old p.2 = .ok e) idx es →
      old.length < U64 →
      ∃ out, write_data_loop idx old acc =
          .ok (acc ++ (es.map serEntry).flatten, out) ∧
        out.map Prod.fst = idx.map Prod.fst ∧
        List.Forall₂ (fun q e =>
          q.2.length = (serEntry e).length ∧
          q.2.offset + q.2.length ≤ (acc ++ (es.map serEntry).flatten).length ∧
          readExactAt (acc ++ (es.map serEntry).flatten) q.2.offset q.2.length =
            some (serEntry e) ∧ e.wf = true) out es := by
  intro idx es old acc hf hold
  induction hf generalizing acc with
  | nil =>
    refine ⟨[], ?_, rfl, List.Forall₂.nil⟩
    simp [write_data_loop]
  | @cons p e idx' es' hpe hf ih =>
    obtain ⟨k, pos⟩ := p
    obtain ⟨out, hrun, hkeys, hfor⟩ := ih (acc ++ serEntry e)
    have hassoc : (acc ++ serEntry e) ++ (es'.map serEntry).flatten =
        acc ++ ((e :: es').map serEntry).flatten := by
      simp [List.append_assoc]
    refine ⟨(k, ⟨acc.length, (serEntry e).length⟩) :: out, ?_, ?_, ?_⟩
    · simp only [write_data_loop, hpe]
      rw [hrun, hassoc]
    · simp [hkeys]
    · refine List.Forall₂.cons ⟨rfl, ?_, ?_, getEntry_ok_wf hold hpe⟩
        (by rw [← hassoc]; exact hfor)
      · simp only [List.map_cons, List.flatten_cons, List.length_append]
        omega
      · have hdrop : (acc ++ ((e :: es').map serEntry).flatten).drop acc.length =
            serEntry e ++ (es'.map serEntry).flatten := by
          rw [← hassoc, List.append_assoc]
          exact drop_append_of_length _ rfl
        simp only [readExactAt]
        rw [hdrop, take_append_of_length _ rfl, if_pos rfl]

/-! ### Search lemmas -/

theorem searchGo_spec {file : List Nat} {filter : Entry → Bool}
    {l : List (Str × Position)} {es : List Entry}
    (h : List.Forall₂ (fun q e => getEntry file q.2 = .ok e) l es) :
    searchGo file filter l = .ok (es.filter filter) := by
  induction h with
  | nil => rfl
  | @cons q e l' es' hqe hf ih =>
    obtain ⟨k, pos⟩ := q
    simp only [searchGo, hqe, ih]
    by_cases hfe : filter e = true <;> simp [List.filter_cons, hfe, Except.map]

theorem sortIndex_perm (m : List (Str × Position)) : (sortIndex m).Perm m :=
  List.mergeSort_perm m _

theorem sortIndex_sorted (m : List (Str × Position)) :
    (sortIndex m).Pairwise fun a b => a.2.offset ≤ b.2.offset := by
  have hs := @List.sorted_mergeSort (Str × Position)
    (fun a b => decide (a.2.offset ≤ b.2.offset))
    (by intro a b c hab hbc; simp only [decide_eq_true_eq] at *; omega)
    (by intro a b; simp only [Bool.or_eq_true, decide_eq_true_eq]; omega) m
  simpa [sortIndex] using hs

/-- A valid encoded stream followed by more bytes iterates to the stream's
records followed by whatever the trailing bytes iterate to. -/
theorem runRecordIter_flatten_append (rs : List (Str × Entry))
    (tail : List Nat) (h : ∀ r ∈ rs, (serKeyed r.1 r.2).length < U64) :
    runRecordIter ((rs.map fun r => encRecord r.1 r.2).flatten ++ tail) =
      (runRecordIter tail).map (rs ++ ·) := by
  induction rs with
  | nil =>
    simp only [List.map_nil, List.flatten_nil, List.nil_append]
    cases runRecordIter tail <;> simp [Except.map]
  | cons r rs ih =>
    obtain ⟨k, e⟩ := r
    simp only [List.map_cons, List.flatten_cons, List.append_assoc]
    rw [runRecordIter_cons _ (h (k, e) (by simp))]
    rw [ih fun x hx => h x (by simp [hx])]
    cases runRecordIter tail <;> simp [Except.map]

/-- Transport a `Forall₂` whose left predicate only looks at the key along
an equality of key lists. -/
theorem forall₂_fst_transfer {P : Str → Entry → Prop} :
    ∀ {l₁ l₂ : List (Str × Position)} {es : List Entry},
      l₁.map Prod.fst = l₂.map Prod.fst →
      List.Forall₂ (fun q e => P q.1 e) l₁ es →
      List.Forall₂ (fun q e => P q.1 e) l₂ es := by
  intro l₁ l₂ es hmap h
  induction h generalizing l₂ with
  | nil =>
    cases l₂ with
    | nil => exact .nil
    | cons q l₂ => simp at hmap
  | @cons a b l₁' es' hpe hf ih =>
    cases l₂ with
    | nil => simp at hmap
    | cons q l₂ =>
      simp only [List.map_cons, List.cons.injEq] at hmap
      exact .cons (hmap.1 ▸ hpe) (ih hmap.2)

/-- Every binding of the index that resolves by lookup and whose byte
range reads back as a serialized well-formed entry loads that entry. -/
theorem forall₂_load {st' : IndexedBinaryFileEntryStore} :
    ∀ {out : List (Str × Position)} {es : List Entry},
      (∀ q ∈ out, idxLookup st'.index q.1 = some q.2) →
      List.Forall₂ (fun q e =>
        readExactAt st'.dataFile q.2.offset q.2.length = some (serEntry e) ∧
          e.wf = true) out es →
      List.Forall₂ (fun q e => st'.load q.1 = .ok (some e)) out es := by
  intro out es hmem h
  induction h with
  | nil => exact .nil
  | @cons a b l₁ l₂ hpe hf ih =>
    refine .cons ?_ (ih fun q hq => hmem q (by simp [hq]))
    unfold IndexedBinaryFileEntryStore.load
    rw [hmem a (by simp)]
    dsimp only
    rw [@getEntry_of_readExact st'.dataFile a.2 b hpe.1 hpe.2]
    rfl

/-! ### Claims -/

/-- C1, counterexample: a data file cut off mid-length-field (here, the
3-byte stream `[1, 2, 3]`) iterates to a clean empty sequence — the
`UnexpectedEof` from `read_u64` is mapped to `None` — and an index file cut
off mid-slot (20 bytes of a 52-byte record) likewise iterates to a clean
empty sequence, with no propagated I/O error in either case. -/
theorem C1_counterexample :
    runRecordIter [1, 2, 3] = .ok [] ∧
      runIndexIter (List.replicate 20 0) = .ok [] :=
  ⟨rfl, rfl⟩

/-- C1 (amended): for the length-prefixed iterator, EOF at or inside the
8-byte length field — clean or mid-length — ends the sequence normally
(trailing partial length bytes after any run of valid records are silently
dropped), while EOF mid-payload after a complete length field is a
propagated I/O error; for the fixed-width index iterator, any stream
shorter than one 52-byte slot — a clean boundary EOF or a short trailing
read — ends the sequence normally, and a full valid slot iterates to its
record followed by the rest of the stream. -/
theorem C1_amended :
    (∀ bytes : List Nat, bytes.length < 8 → runRecordIter bytes = .ok []) ∧
    (∀ (rs : List (Str × Entry)) (tail : List Nat),
      (∀ r ∈ rs, (serKeyed r.1 r.2).length < U64) → tail.length < 8 →
      runRecordIter ((rs.map fun r => encRecord r.1 r.2).flatten ++ tail) =
        .ok rs) ∧
    (∀ (len : Nat) (payload : List Nat), len < U64 → payload.length < len →
      runRecordIter (u64le len ++ payload) = .error .ioError) ∧
    (∀ bytes : List Nat, bytes.length < INDEX_RECORD_SIZE →
      runIndexIter bytes = .ok []) ∧
    (∀ (id : Str) (p : Position) (rest : List Nat),
      (serIndexRecord id p).length ≤ INDEX_RECORD_SIZE → id.length < U64 →
      p.offset < U64 → p.length < U64 →
      runIndexIter (padIndexRecord id p ++ rest) =
        (runIndexIter rest).map (⟨id, p⟩ :: ·)) := by
  refine ⟨fun bytes h => runRecordIter_short h, ?_, ?_, ?_, ?_⟩
  · intro rs tail hb ht
    rw [runRecordIter_flatten_append rs tail hb, runRecordIter_short ht]
    simp [Except.map]
  · intro len payload h1 h2
    exact runRecordIter_midPayload h1 h2
  · intro bytes h
    exact runIndexIter_short h
  · intro id p rest h1 h2 h3 h4
    exact runIndexIter_cons rest h1 h2 h3 h4

/-- C1 witness: the amended truncation behaviors instantiated on concrete
streams — one valid record followed by a 3-byte truncated tail iterates to
exactly that record; a complete length field announcing 5 bytes followed by
only 2 payload bytes is an I/O error; a 20-byte index file iterates to
nothing; one padded slot plus a short tail iterates to its one record. -/
theorem C1_amended_witness :
    runRecordIter
        (([(([49] : Str), (⟨[49], [65], none, none, none, none⟩ : Entry))].map
          fun r => encRecord r.1 r.2).flatten ++ [1, 2, 3]) =
      .ok [([49], ⟨[49], [65], none, none, none, none⟩)] ∧
    runRecordIter (u64le 5 ++ [7, 7]) = .error .ioError ∧
    runIndexIter (List.replicate 20 0) = .ok [] ∧
    runIndexIter (padIndexRecord [49] ⟨0, 10⟩ ++ [5, 5]) =
      .ok [⟨[49], ⟨0, 10⟩⟩] := by
  refine ⟨C1_amended.2.1 _ _ (by decide) (by decide), C1_amended.2.2.1 5 [7, 7]
    (by decide) (by decide), C1_amended.2.2.2.1 _ (by decide), ?_⟩
  rw [C1_amended.2.2.2.2 [49] ⟨0, 10⟩ [5, 5] (by decide) (by decide)
    (by decide) (by decide)]
  rw [C1_amended.2.2.2.1 [5, 5] (by decide)]
  rfl

/-- C7, counterexample: the two engines do not share one error type — the
full-rewrite store declares its own local error enum with exactly two
variants, the shared type has three, and no bijection between them exists,
so the full-rewrite engine cannot signal index-record-too-large. -/
theorem C7_counterexample :
    Fintype.card FullStoreError = 2 ∧ Fintype.card BinaryStoreError = 3 ∧
      ¬Nonempty (FullStoreError ≃ BinaryStoreError) := by
  refine ⟨by decide, by decide, ?_⟩
  intro ⟨eqv⟩
  have hc := Fintype.card_congr eqv
  rw [show Fintype.card FullStoreError = 2 by decide,
    show Fintype.card BinaryStoreError = 3 by decide] at hc
  omega

/-- C7 (amended): there are two distinct error types, one per engine. The
full-rewrite engine and its length-prefixed record iterator (which imports
the store's local enum) use the two-variant type of
`binary_file_entry_store.rs` — I/O failure and serialization failure —
so every error the record iterator can ever emit is one of those two and
index-record-too-large is inexpressible there; the indexed engine and its
fixed-width index iterator use the shared three-variant type of
`binary_store_error.rs`, whose third variant, index-record-too-large, the
indexed engine's `write_index` actually produces. -/
theorem C7_amended :
    Fintype.card BinaryStoreError = 3 ∧ Fintype.card FullStoreError = 2 ∧
    (∀ e : FullStoreError,
      e = FullStoreError.ioError ∨ e = FullStoreError.serializationError) ∧
    (∀ e : BinaryStoreError,
      e = BinaryStoreError.ioError ∨ e = BinaryStoreError.serializationError ∨
        e = BinaryStoreError.indexRecordTooLarge) ∧
    (∀ (bytes rest : List Nat) (e : FullStoreError),
      recordNext bytes = some (.error e, rest) →
      e = FullStoreError.ioError ∨ e = FullStoreError.serializationError) ∧
    (write_index [(List.replicate 29 65, ⟨0, 10⟩)]).2 =
      some BinaryStoreError.indexRecordTooLarge := by
  refine ⟨by decide, by decide, ?_, ?_, ?_, by decide⟩
  · intro e; cases e <;> simp
  · intro e; cases e <;> simp
  · intro bytes rest e _; cases e <;> simp

/-- C7 witness: the record iterator's error on a concrete stream cut off
mid-payload is one of the two variants of the full-rewrite store's local
error type. -/
theorem C7_amended_witness :
    FullStoreError.ioError = FullStoreError.ioError ∨
      FullStoreError.ioError = FullStoreError.serializationError :=
  C7_amended.2.2.2.2.1 (u64le 5 ++ [7, 7]) [] FullStoreError.ioError (by rfl)

/-- C5: dirty-flag laws of the indexed engine — a fresh store has both
flags false; every save sets `needs_index_rewrite`; a successful
`rewrite_index` clears it; `reload_index` never touches either flag (so
intervening reloads cannot disturb the laws); every delete sets
`needs_data_rewrite`; a successful `write_data` clears it; and a failing
`rewrite_index` run — encode failure or swap failure — leaves
`needs_index_rewrite` exactly as it was. -/
theorem C5_dirty_flag_laws :
    (∀ d i : List Nat,
      (IndexedBinaryFileEntryStore.new d i).needs_index_rewrite = false ∧
        (IndexedBinaryFileEntryStore.new d i).needs_data_rewrite = false) ∧
    (∀ (st : IndexedBinaryFileEntryStore) (id : Str) (v : Entry),
      (st.save id v).needs_index_rewrite = true) ∧
    (∀ (st st' : IndexedBinaryFileEntryStore), st.rewrite_index = .ok st' →
      st'.needs_index_rewrite = false) ∧
    (∀ st : IndexedBinaryFileEntryStore,
      st.reload_index.needs_index_rewrite = st.needs_index_rewrite ∧
        st.reload_index.needs_data_rewrite = st.needs_data_rewrite) ∧
    (∀ (st : IndexedBinaryFileEntryStore) (id : Str),
      (st.delete id).needs_data_rewrite = true) ∧
    (∀ (st st' : IndexedBinaryFileEntryStore), st.write_data = .ok st' →
      st'.needs_data_rewrite = false) ∧
    (∀ (b : Bool) (st st' : IndexedBinaryFileEntryStore)
        (e : BinaryStoreError), st.rewrite_index_run b = (st', .error e) →
      st'.needs_index_rewrite = st.needs_index_rewrite) := by
  refine ⟨fun d i => ⟨rfl, rfl⟩, fun st id v => rfl, ?_, ?_, fun st id => rfl,
    ?_, ?_⟩
  · intro st st' h
    unfold IndexedBinaryFileEntryStore.rewrite_index
      IndexedBinaryFileEntryStore.rewrite_index_run at h
    cases hw : write_index st.index with
    | mk bytes err =>
      rw [hw] at h
      cases err with
      | some e => simp at h
      | none =>
        simp only [Bool.false_eq_true, if_neg] at h
        obtain rfl : _ = st' := by injection h
        rfl
  · intro st
    unfold IndexedBinaryFileEntryStore.reload_index
    cases load_index st.indexFile <;> exact ⟨rfl, rfl⟩
  · intro st st' h
    unfold IndexedBinaryFileEntryStore.write_data
      IndexedBinaryFileEntryStore.write_data_run at h
    cases hw : write_data_loop st.index st.dataFile [] with
    | error e => rw [hw] at h; simp at h
    | ok p =>
      obtain ⟨bytes, newIndex⟩ := p
      rw [hw] at h
      simp only [Bool.false_eq_true, if_neg] at h
      obtain rfl : _ = st' := by injection h
      rfl
  · intro b st st' e h
    unfold IndexedBinaryFileEntryStore.rewrite_index_run at h
    cases hw : write_index st.index with
    | mk bytes err =>
      rw [hw] at h
      cases err with
      | some e2 =>
        obtain ⟨h1, -⟩ := Prod.mk.injEq .. ▸ h
        rw [← h1]
      | none =>
        cases b with
        | true =>
          simp only [if_pos] at h
          obtain ⟨h1, -⟩ := Prod.mk.injEq .. ▸ h
          rw [← h1]
        | false => simp at h

/-- C5 witness: on a concrete store — fresh, then one save, then a
successful `rewrite_index`, then a delete, then a successful `write_data`,
with a no-op reload in between — the flag laws hold at every step. -/
theorem C5_witness :
    ((IndexedBinaryFileEntryStore.new [] []).needs_index_rewrite = false ∧
      (IndexedBinaryFileEntryStore.new [] []).needs_data_rewrite = false) ∧
    (((IndexedBinaryFileEntryStore.new [] []).save [49]
        ⟨[49], [65], none, none, none, none⟩).needs_index_rewrite = true) ∧
    (∃ st', ((IndexedBinaryFileEntryStore.new [] []).save [49]
        ⟨[49], [65], none, none, none, none⟩).rewrite_index = .ok st' ∧
      st'.needs_index_rewrite = false) ∧
    (((IndexedBinaryFileEntryStore.new [] []).reload_index).needs_index_rewrite
        = false) ∧
    (((IndexedBinaryFileEntryStore.new [] []).delete [49]).needs_data_rewrite
        = true) ∧
    ∃ st', ((IndexedBinaryFileEntryStore.new [] []).delete
        [49]).write_data = .ok st' ∧ st'.needs_data_rewrite = false := by
  obtain ⟨st2, h2⟩ : ∃ st', ((IndexedBinaryFileEntryStore.new [] []).save [49]
      ⟨[49], [65], none, none, none, none⟩).rewrite_index = .ok st' := ⟨_, rfl⟩
  obtain ⟨st3, h3⟩ : ∃ st', ((IndexedBinaryFileEntryStore.new [] []).delete
      [49]).write_data = .ok st' := ⟨_, rfl⟩
  refine ⟨C5_dirty_flag_laws.1 [] [], C5_dirty_flag_laws.2.1 _ [49] _,
    ⟨st2, h2, C5_dirty_flag_laws.2.2.1 _ _ h2⟩, ?_,
    C5_dirty_flag_laws.2.2.2.2.1 _ [49],
    ⟨st3, h3, C5_dirty_flag_laws.2.2.2.2.2.1 _ _ h3⟩⟩
  rw [(C5_dirty_flag_laws.2.2.2.1 (IndexedBinaryFileEntryStore.new [] [])).1]
  rfl

/-- C6: when persisting the index, a pair whose serialized encoding
exceeds the fixed 52-byte slot is rejected with the
index-record-too-large error before any of its bytes reach the file (the
bytes written are exactly the padded slots of the fitting pairs before
it, never a truncation of the offending pair), and every fitting pair is
zero-padded to exactly 52 bytes. -/
theorem C6_slot_bound :
    (∀ (pre : List (Str × Position)) (id : Str) (pos : Position)
        (rest : List (Str × Position)),
      (∀ q ∈ pre, (serIndexRecord q.1 q.2).length ≤ INDEX_RECORD_SIZE) →
      INDEX_RECORD_SIZE < (serIndexRecord id pos).length →
      write_index (pre ++ (id, pos) :: rest) =
        ((pre.map fun q => padIndexRecord q.1 q.2).flatten,
          some .indexRecordTooLarge)) ∧
    (∀ l : List (Str × Position),
      (∀ q ∈ l, (serIndexRecord q.1 q.2).length ≤ INDEX_RECORD_SIZE) →
      write_index l = ((l.map fun q => padIndexRecord q.1 q.2).flatten, none) ∧
        ∀ q ∈ l, (padIndexRecord q.1 q.2).length = INDEX_RECORD_SIZE ∧
          padIndexRecord q.1 q.2 = serIndexRecord q.1 q.2 ++
            List.replicate (INDEX_RECORD_SIZE - (serIndexRecord q.1 q.2).length) 0) := by
  refine ⟨write_index_too_large, fun l h => ⟨write_index_all_fit l h, ?_⟩⟩
  intro q hq
  exact ⟨padIndexRecord_length (h q hq), rfl⟩

/-- C6 witness: a 29-byte id (53-byte encoding) after one fitting pair is
rejected with nothing of it written; a 1-byte id (25-byte encoding) is
padded to exactly 52 bytes. -/
theorem C6_witness :
    write_index ([([49], ⟨0, 10⟩)] ++ (List.replicate 29 65, ⟨0, 10⟩) :: []) =
        (([([49], ⟨0, 10⟩)].map fun q =>
            padIndexRecord q.1 q.2).flatten, some .indexRecordTooLarge) ∧
      write_index [([49], ⟨0, 10⟩)] =
        (([([49], ⟨0, 10⟩)].map fun q => padIndexRecord q.1 q.2).flatten,
          none) ∧
      (padIndexRecord [49] ⟨0, 10⟩).length = INDEX_RECORD_SIZE := by
  refine ⟨?_, ?_, ?_⟩
  · exact C6_slot_bound.1 [([49], ⟨0, 10⟩)] (List.replicate 29 65) ⟨0, 10⟩ []
      (by decide) (by decide)
  · exact (C6_slot_bound.2 [([49], ⟨0, 10⟩)] (by decide)).1
  · exact ((C6_slot_bound.2 [([49], ⟨0, 10⟩)] (by decide)).2 ([49], ⟨0, 10⟩)
      (by simp)).1

/-- C2: save-then-load round-trip — for the full-rewrite engine, saving an
entry under its own id into any parseable file whose stored keys match
their entries' ids, then loading that id, returns exactly the entry; for
the indexed engine the same holds on any store state. -/
theorem C2_save_load_roundtrip :
    (∀ (file : List Nat) (records : List (Str × Entry)) (e : Entry),
      runRecordIter file = .ok records →
      (∀ r ∈ records, r.1 = r.2.id) →
      file.length < U64 →
      (serKeyed e.id e).length < U64 →
      ∃ file', saveFR file e.id e = .ok file' ∧
        loadFR file' e.id = .ok (some e)) ∧
    (∀ (st : IndexedBinaryFileEntryStore) (e : Entry), e.wf = true →
      (st.save e.id e).load e.id = .ok (some e)) := by
  constructor
  · intro file records e hrun hkeys hlen he
    unfold saveFR moveToNewFile
    rw [hrun]
    refine ⟨_, rfl, ?_⟩
    have hform : ((records.filter fun r => !([e.id].contains r.1)).map
        fun r => writeEntryFR r.2) =
        ((records.filter fun r => !([e.id].contains r.1)).map
          fun r => (r.2.id, r.2)).map fun r => encRecord r.1 r.2 := by
      simp [List.map_map, Function.comp, writeEntryFR]
    rw [hform]
    rw [loadFR_flatten_skip _ _ e.id ?_ ?_]
    · simp only [List.map_cons, List.map_nil, List.flatten_cons,
        List.flatten_nil, List.append_nil]
      have : writeEntryFR e = encRecord e.id e ++ [] := by
        simp [writeEntryFR]
      rw [this, loadFR_cons [] e.id he, if_pos rfl]
    · intro x hx
      obtain ⟨r, hr, rfl⟩ := List.mem_map.mp hx
      obtain ⟨hrm, -⟩ := List.mem_filter.mp hr
      have hb := runRecordIter_ok_bound hrun r hrm
      dsimp only
      rw [← hkeys r hrm]
      omega
    · intro x hx
      obtain ⟨r, hr, rfl⟩ := List.mem_map.mp hx
      obtain ⟨hrm, hfr⟩ := List.mem_filter.mp hr
      dsimp only
      rw [← hkeys r hrm]
      simpa using hfr
  · intro st e he
    unfold IndexedBinaryFileEntryStore.load IndexedBinaryFileEntryStore.save
    dsimp only
    rw [idxLookup_insert]
    have hre : readExactAt (st.dataFile ++ serEntry e) st.dataFile.length
        (serEntry e).length = some (serEntry e) := by
      simp only [readExactAt]
      rw [drop_append_of_length _ rfl, List.take_length, if_pos rfl]
    dsimp only
    rw [@getEntry_of_readExact (st.dataFile ++ serEntry e)
      ⟨st.dataFile.length, (serEntry e).length⟩ e hre he]
    rfl

/-- C2 witness: a concrete entry round-trips through an initially empty
file in the full-rewrite engine and through a fresh indexed store. -/
theorem C2_witness :
    (∃ file', saveFR [] (⟨[49], [65], none, none, none, none⟩ : Entry).id
        ⟨[49], [65], none, none, none, none⟩ = .ok file' ∧
      loadFR file' (⟨[49], [65], none, none, none, none⟩ : Entry).id =
        .ok (some ⟨[49], [65], none, none, none, none⟩)) ∧
    ((IndexedBinaryFileEntryStore.new [] []).save
        (⟨[49], [65], none, none, none, none⟩ : Entry).id
        ⟨[49], [65], none, none, none, none⟩).load
        (⟨[49], [65], none, none, none, none⟩ : Entry).id =
      .ok (some ⟨[49], [65], none, none, none, none⟩) :=
  ⟨C2_save_load_roundtrip.1 [] [] ⟨[49], [65], none, none, none, none⟩ rfl
      (by simp) (by decide) (by decide),
    C2_save_load_roundtrip.2 (IndexedBinaryFileEntryStore.new [] [])
      ⟨[49], [65], none, none, none, none⟩ (by decide)⟩

/-- C4: search returns exactly the live entries passing the filter — for
the full-rewrite engine over an encoded file, in file order; for the
indexed engine, the snapshot it reads is sorted by ascending byte offset
and is a permutation of the live index, and the results are the entries
of that snapshot passing the filter, in that order. -/
theorem C4_search :
    (∀ (rs : List (Str × Entry)) (filter : Entry → Bool),
      (∀ r ∈ rs, (serKeyed r.1 r.2).length < U64) →
      searchFR ((rs.map fun r => encRecord r.1 r.2).flatten) filter =
        .ok ((rs.map Prod.snd).filter filter)) ∧
    (∀ (st : IndexedBinaryFileEntryStore) (filter : Entry → Bool)
        (es : List Entry),
      List.Forall₂ (fun q e => getEntry st.dataFile q.2 = .ok e)
        (sortIndex st.index) es →
      st.search filter = .ok (es.filter filter) ∧
        ((sortIndex st.index).Pairwise fun a b => a.2.offset ≤ b.2.offset) ∧
        (sortIndex st.index).Perm st.index) := by
  constructor
  · intro rs filter hb
    unfold searchFR
    rw [runRecordIter_flatten rs hb]
    rfl
  · intro st filter es hf
    refine ⟨?_, sortIndex_sorted _, sortIndex_perm _⟩
    unfold IndexedBinaryFileEntryStore.search
    exact searchGo_spec hf

unseal List.merge List.mergeSort in
/-- C4 witness: a two-record encoded file searched with the match-all
filter returns both entries in file order; a two-entry indexed store
returns both entries in ascending offset order. -/
theorem C4_witness :
    searchFR (([(([49] : Str), (⟨[49], [65], none, none, none, none⟩ : Entry)),
        (([50] : Str), (⟨[50], [66], none, none, none, none⟩ : Entry))].map
          fun r => encRecord r.1 r.2).flatten) (fun _ => true) =
      .ok [⟨[49], [65], none, none, none, none⟩,
        ⟨[50], [66], none, none, none, none⟩] ∧
    (((IndexedBinaryFileEntryStore.new [] []).save [49]
        ⟨[49], [65], none, none, none, none⟩).save [50]
        ⟨[50], [66], none, none, none, none⟩).search (fun _ => true) =
      .ok [⟨[49], [65], none, none, none, none⟩,
        ⟨[50], [66], none, none, none, none⟩] := by
  constructor
  · have := C4_search.1 [([49], ⟨[49], [65], none, none, none, none⟩),
      ([50], ⟨[50], [66], none, none, none, none⟩)] (fun _ => true) (by decide)
    simpa using this
  · have := (C4_search.2 (((IndexedBinaryFileEntryStore.new [] []).save [49]
      ⟨[49], [65], none, none, none, none⟩).save [50]
      ⟨[50], [66], none, none, none, none⟩) (fun _ => true)
      [⟨[49], [65], none, none, none, none⟩,
        ⟨[50], [66], none, none, none, none⟩]
      (List.Forall₂.cons rfl (List.Forall₂.cons rfl List.Forall₂.nil))).1
    simpa using this

/-- C9: in the full-rewrite engine, `save(id, entry)` deletes every record
whose stored key equals the `id` argument but writes the new record keyed
by `entry.id`; when the two differ, a subsequent `load(id)` finds nothing,
and the saved entry is retrievable under `entry.id` (when no other record
with that key precedes it). -/
theorem C9_save_rekeys :
    ∀ (file : List Nat) (records : List (Str × Entry)) (id : Str) (v : Entry),
      runRecordIter file = .ok records →
      (∀ r ∈ records, r.1 = r.2.id) →
      file.length < U64 →
      (serKeyed v.id v).length < U64 →
      id ≠ v.id →
      ∃ file', saveFR file id v = .ok file' ∧
        runRecordIter file' =
          .ok (((records.filter fun r => !([id].contains r.1)).map
            fun r => (r.2.id, r.2)) ++ [(v.id, v)]) ∧
        loadFR file' id = .ok none ∧
        ((∀ r ∈ records, r.1 ≠ v.id) → loadFR file' v.id = .ok (some v)) := by
  intro file records id v hrun hkeys hlen hv hne
  unfold saveFR moveToNewFile
  rw [hrun]
  refine ⟨_, rfl, ?_, ?_, ?_⟩
  all_goals
    have hform : ((records.filter fun r => !([id].contains r.1)).map
        fun r => writeEntryFR r.2) =
        ((records.filter fun r => !([id].contains r.1)).map
          fun r => (r.2.id, r.2)).map fun r => encRecord r.1 r.2 := by
      simp [List.map_map, Function.comp, writeEntryFR]
    have hbounds : ∀ x ∈ (records.filter fun r => !([id].contains r.1)).map
        fun r => (r.2.id, r.2), (serKeyed x.1 x.2).length < U64 := by
      intro x hx
      obtain ⟨r, hr, rfl⟩ := List.mem_map.mp hx
      obtain ⟨hrm, -⟩ := List.mem_filter.mp hr
      have hb := runRecordIter_ok_bound hrun r hrm
      dsimp only
      rw [← hkeys r hrm]
      omega
  · -- the rebuilt file iterates to the kept, re-keyed records plus the new one
    rw [hform]
    have htailform : ([v].map writeEntryFR).flatten =
        (([(v.id, v)].map fun r => encRecord r.1 r.2)).flatten := by
      simp [writeEntryFR]
    rw [htailform, ← List.flatten_append, ← List.map_append]
    rw [runRecordIter_flatten _ ?_]
    intro x hx
    rcases List.mem_append.mp hx with hx | hx
    · exact hbounds x hx
    · obtain rfl : x = (v.id, v) := by simpa using hx
      exact hv
  · -- load(id) finds nothing
    rw [hform, loadFR_flatten_skip _ _ id hbounds ?_]
    · simp only [List.map_cons, List.map_nil, List.flatten_cons,
        List.flatten_nil, List.append_nil]
      have : writeEntryFR v = encRecord v.id v ++ [] := by
        simp [writeEntryFR]
      rw [this, loadFR_cons [] id hv, if_neg (fun hh => hne hh.symm)]
      exact loadFR_short id (by simp)
    · intro x hx
      obtain ⟨r, hr, rfl⟩ := List.mem_map.mp hx
      obtain ⟨hrm, hfr⟩ := List.mem_filter.mp hr
      dsimp only
      rw [← hkeys r hrm]
      simpa using hfr
  · -- load(v.id) returns the saved entry when its key is otherwise unused
    intro hnok
    rw [hform, loadFR_flatten_skip _ _ v.id hbounds ?_]
    · simp only [List.map_cons, List.map_nil, List.flatten_cons,
        List.flatten_nil, List.append_nil]
      have : writeEntryFR v = encRecord v.id v ++ [] := by
        simp [writeEntryFR]
      rw [this, loadFR_cons [] v.id hv, if_pos rfl]
    · intro x hx
      obtain ⟨r, hr, rfl⟩ := List.mem_map.mp hx
      obtain ⟨hrm, -⟩ := List.mem_filter.mp hr
      dsimp only
      rw [← hkeys r hrm]
      exact hnok r hrm

/-- C9 witness: saving an entry whose id field is `[50]` under the
argument id `[49]` into a file holding one record keyed `[49]` removes
that record, stores the new one keyed `[50]`, makes `load([49])` return
nothing, and leaves the entry retrievable under `[50]`. -/
theorem C9_witness :
    ∃ file', saveFR (encRecord [49] ⟨[49], [65], none, none, none, none⟩)
        [49] ⟨[50], [66], none, none, none, none⟩ = .ok file' ∧
      runRecordIter file' =
        .ok ((([(([49] : Str), (⟨[49], [65], none, none, none, none⟩ :
            Entry))].filter fun r => !([[49]].contains r.1)).map
          fun r => (r.2.id, r.2)) ++
            [([50], ⟨[50], [66], none, none, none, none⟩)]) ∧
      loadFR file' [49] = .ok none ∧
      ((∀ r ∈ [(([49] : Str), (⟨[49], [65], none, none, none, none⟩ :
          Entry))], r.1 ≠ [50]) → loadFR file' [50] =
        .ok (some ⟨[50], [66], none, none, none, none⟩)) :=
  C9_save_rekeys (encRecord [49] ⟨[49], [65], none, none, none, none⟩)
    [([49], ⟨[49], [65], none, none, none, none⟩)] [49]
    ⟨[50], [66], none, none, none, none⟩ rfl (by decide) (by decide)
    (by decide) (by decide)

/-- C8: when the remove-then-rename swap of `write_data` fails after the
temporary data file has been fully written, the call returns an error but
the in-memory index has already been replaced by the positions computed
for the temporary file (they read back correctly only against the
temporary file's bytes), while the store keeps reading the old data file,
and `needs_data_rewrite` is still true — the in-memory state is not rolled
back. -/
theorem C8_failed_swap :
    ∀ (st : IndexedBinaryFileEntryStore) (es : List Entry),
      List.Forall₂ (fun p e => getEntry st.dataFile p.2 = .ok e) st.index es →
      st.dataFile.length < U64 →
      st.needs_data_rewrite = true →
      ∃ (st' : IndexedBinaryFileEntryStore) (bytes : List Nat)
        (newIndex : List (Str × Position)),
        st.write_data_run true = (st', .error .ioError) ∧
        write_data_loop st.index st.dataFile [] = .ok (bytes, newIndex) ∧
        st'.index = newIndex ∧
        st'.dataFile = st.dataFile ∧
        st'.indexFile = st.indexFile ∧
        st'.needs_data_rewrite = true ∧
        st'.needs_index_rewrite = st.needs_index_rewrite ∧
        newIndex.map Prod.fst = st.index.map Prod.fst ∧
        List.Forall₂ (fun q e =>
          readExactAt bytes q.2.offset q.2.length = some (serEntry e))
          newIndex es := by
  intro st es hf hold hdirty
  obtain ⟨out, hrun, hkeys, hfor⟩ := write_data_loop_spec [] hf hold
  rw [List.nil_append] at hrun hfor
  refine ⟨{ st with index := out }, (es.map serEntry).flatten, out, ?_, hrun,
    rfl, rfl, rfl, hdirty, rfl, hkeys, ?_⟩
  · unfold IndexedBinaryFileEntryStore.write_data_run
    rw [hrun]
    simp
  · exact List.Forall₂.imp (fun a b h => h.2.2.1) hfor


/-- C8 witness: a one-entry store whose swap fails keeps the old data
file, a still-set dirty flag, and the new index. -/
theorem C8_witness :
    ∃ (st' : IndexedBinaryFileEntryStore) (bytes : List Nat)
      (newIndex : List (Str × Position)),
      (((IndexedBinaryFileEntryStore.new [] []).save [49]
          ⟨[49], [65], none, none, none, none⟩).delete
          [50]).write_data_run true = (st', .error .ioError) ∧
      write_data_loop (((IndexedBinaryFileEntryStore.new [] []).save [49]
          ⟨[49], [65], none, none, none, none⟩).delete [50]).index
        (((IndexedBinaryFileEntryStore.new [] []).save [49]
          ⟨[49], [65], none, none, none, none⟩).delete [50]).dataFile []
        = .ok (bytes, newIndex) ∧
      st'.index = newIndex ∧
      st'.dataFile = (((IndexedBinaryFileEntryStore.new [] []).save [49]
          ⟨[49], [65], none, none, none, none⟩).delete [50]).dataFile ∧
      st'.indexFile = (((IndexedBinaryFileEntryStore.new [] []).save [49]
          ⟨[49], [65], none, none, none, none⟩).delete [50]).indexFile ∧
      st'.needs_data_rewrite = true ∧
      st'.needs_index_rewrite = (((IndexedBinaryFileEntryStore.new [] []).save
          [49] ⟨[49], [65], none, none, none, none⟩).delete
          [50]).needs_index_rewrite ∧
      newIndex.map Prod.fst = (((IndexedBinaryFileEntryStore.new [] []).save
          [49] ⟨[49], [65], none, none, none, none⟩).delete
          [50]).index.map Prod.fst ∧
      List.Forall₂ (fun q e =>
        readExactAt bytes q.2.offset q.2.length = some (serEntry e))
        newIndex [(⟨[49], [65], none, none, none, none⟩ : Entry)] := by
  obtain ⟨st', bytes, newIndex, h⟩ := C8_failed_swap
    (((IndexedBinaryFileEntryStore.new [] []).save [49]
      ⟨[49], [65], none, none, none, none⟩).delete [50])
    [⟨[49], [65], none, none, none, none⟩]
    (List.Forall₂.cons rfl List.Forall₂.nil) (by decide) rfl
  exact ⟨st', bytes, newIndex, h⟩

/-- C3: a successful `write_data` compaction preserves the store's
logical contents and reclaims garbage — every id in the index loads the
same entry as before, the new data file is exactly the concatenation of
the re-serialized entries reachable from the index (in iteration order),
the in-memory index is replaced keeping the same keys with new offsets,
`needs_data_rewrite` is cleared, and the index file and
`needs_index_rewrite` are untouched. -/
theorem C3_write_data_compaction :
    ∀ (st : IndexedBinaryFileEntryStore) (es : List Entry),
      (st.index.map Prod.fst).Nodup →
      List.Forall₂ (fun p e => getEntry st.dataFile p.2 = .ok e) st.index es →
      st.dataFile.length < U64 →
      ∃ st', st.write_data = .ok st' ∧
        st'.needs_data_rewrite = false ∧
        st'.dataFile = (es.map serEntry).flatten ∧
        st'.index.map Prod.fst = st.index.map Prod.fst ∧
        st'.indexFile = st.indexFile ∧
        st'.needs_index_rewrite = st.needs_index_rewrite ∧
        List.Forall₂ (fun p e => st'.load p.1 = .ok (some e)) st.index es := by
  intro st es hnd hf hold
  obtain ⟨out, hrun, hkeys, hfor⟩ := write_data_loop_spec [] hf hold
  rw [List.nil_append] at hrun hfor
  have hwd : st.write_data = .ok ⟨(es.map serEntry).flatten, st.indexFile,
      out, st.needs_index_rewrite, false⟩ := by
    unfold IndexedBinaryFileEntryStore.write_data
      IndexedBinaryFileEntryStore.write_data_run
    rw [hrun]
    rfl
  refine ⟨_, hwd, rfl, rfl, hkeys, rfl, rfl, ?_⟩
  have hndout : (out.map Prod.fst).Nodup := by
    rw [hkeys]; exact hnd
  have hmem : ∀ q ∈ out, idxLookup out q.1 = some q.2 := by
    intro q hq
    obtain ⟨a, b⟩ := q
    exact idxLookup_mem_nodup hndout hq
  have hload := @forall₂_load ⟨(es.map serEntry).flatten, st.indexFile,
      out, st.needs_index_rewrite, false⟩ out es hmem
    (List.Forall₂.imp (fun a b h => ⟨h.2.2.1, h.2.2.2⟩) hfor)
  exact @forall₂_fst_transfer
    (fun k e => (⟨(es.map serEntry).flatten, st.indexFile, out,
      st.needs_index_rewrite, false⟩ : IndexedBinaryFileEntryStore).load k =
        .ok (some e)) out st.index es hkeys hload

/-- C3 witness: compacting a one-entry store leaves the entry loadable,
the new data file equal to the entry's serialization, the key preserved
and the dirty flag cleared. -/
theorem C3_witness :
    ∃ st', ((IndexedBinaryFileEntryStore.new [] []).save [49]
        ⟨[49], [65], none, none, none, none⟩).write_data = .ok st' ∧
      st'.needs_data_rewrite = false ∧
      st'.dataFile = ([(⟨[49], [65], none, none, none, none⟩ : Entry)].map
        serEntry).flatten ∧
      st'.index.map Prod.fst = ((IndexedBinaryFileEntryStore.new [] []).save
        [49] ⟨[49], [65], none, none, none, none⟩).index.map Prod.fst ∧
      st'.indexFile = ((IndexedBinaryFileEntryStore.new [] []).save [49]
        ⟨[49], [65], none, none, none, none⟩).indexFile ∧
      st'.needs_index_rewrite = ((IndexedBinaryFileEntryStore.new [] []).save
        [49] ⟨[49], [65], none, none, none, none⟩).needs_index_rewrite ∧
      List.Forall₂ (fun p e => st'.load p.1 = .ok (some e))
        ((IndexedBinaryFileEntryStore.new [] []).save [49]
          ⟨[49], [65], none, none, none, none⟩).index
        [⟨[49], [65], none, none, none, none⟩] :=
  C3_write_data_compaction ((IndexedBinaryFileEntryStore.new [] []).save [49]
      ⟨[49], [65], none, none, none, none⟩)
    [⟨[49], [65], none, none, none, none⟩] (by decide)
    (List.Forall₂.cons rfl List.Forall₂.nil) (by decide)

/-- C10: `delete` on the indexed store always succeeds (the modelled
transition is total, as the Rust method unconditionally returns `Ok(())`),
sets `needs_data_rewrite` even when the id is absent, touches neither the
data file nor the index file nor `needs_index_rewrite`, removes the id
from the in-memory index and changes no other binding. -/
theorem C10_delete_frame :
    ∀ (st : IndexedBinaryFileEntryStore) (id : Str),
      (st.delete id).needs_data_rewrite = true ∧
      (st.delete id).dataFile = st.dataFile ∧
      (st.delete id).indexFile = st.indexFile ∧
      (st.delete id).needs_index_rewrite = st.needs_index_rewrite ∧
      idxLookup (st.delete id).index id = none ∧
      ∀ k, k ≠ id → idxLookup (st.delete id).index k = idxLookup st.index k := by
  intro st id
  refine ⟨rfl, rfl, rfl, rfl, idxLookup_remove_self st.index id, ?_⟩
  intro k hk
  exact idxLookup_remove_ne st.index id k hk

/-- C10 witness: deleting an id absent from a one-entry store still sets
the dirty flag, and the other binding survives untouched. -/
theorem C10_witness :
    ((IndexedBinaryFileEntryStore.new [] []).delete [50]).needs_data_rewrite
        = true ∧
      idxLookup (((IndexedBinaryFileEntryStore.new [] []).save [49]
          ⟨[49], [65], none, none, none, none⟩).delete [50]).index [49] =
        idxLookup ((IndexedBinaryFileEntryStore.new [] []).save [49]
          ⟨[49], [65], none, none, none, none⟩).index [49] :=
  ⟨(C10_delete_frame _ [50]).1,
    (C10_delete_frame ((IndexedBinaryFileEntryStore.new [] []).save [49]
      ⟨[49], [65], none, none, none, none⟩) [50]).2.2.2.2.2 [49] (by decide)⟩

end Tuggerah
